import Mathlib

/-!
Verification of the poker-tournament core numeric subsystems:
the blind structure generator, the capacity calculator, the
starting-stack selector, the minimum-liquidity estimator and the
chip distribution solver, shallowly embedded from the JavaScript
sources (server/index.js and the chip-distribution module).

JavaScript numbers are modelled as `ℕ` where the source only performs
integer arithmetic (`Math.floor` division and the like), and as `ℚ`
where the source multiplies by a fractional blind-increase rate.
`Math.floor` is the rational floor, `Math.ceil` the rational ceiling,
and `Math.round` (round half towards positive infinity) on the
non-negative values that occur here is modelled by `jround`.

The arithmetic on `ℚ` is written through small wrappers (`qadd`,
`qsub`, `qmul`, `qdiv`, `qabs`, `qfloor`, `qceil`) that are proved
equal to the standard operations; the wrappers exist only so that
closed instances of the definitions can be evaluated by `decide`
(the library's `Rat.add` etc. are `@[irreducible]`).
-/

namespace Poker

/-- Kernel-evaluable rational addition; equal to `+` (see `qadd_eq`). -/
def qadd (a b : ℚ) : ℚ := mkRat (a.num * b.den + b.num * a.den) (a.den * b.den)

/-- Kernel-evaluable rational subtraction; equal to `-` (see `qsub_eq`). -/
def qsub (a b : ℚ) : ℚ := mkRat (a.num * b.den - b.num * a.den) (a.den * b.den)

/-- Kernel-evaluable rational multiplication; equal to `*` (see `qmul_eq`). -/
def qmul (a b : ℚ) : ℚ := mkRat (a.num * b.num) (a.den * b.den)

/-- Kernel-evaluable rational division; equal to `/` (see `qdiv_eq`). -/
def qdiv (a b : ℚ) : ℚ := qmul a (Rat.divInt b.den b.num)

/-- Kernel-evaluable absolute value on `ℚ`; equal to `|·|` (see `qabs_eq`). -/
def qabs (a : ℚ) : ℚ := if a.num < 0 then -a else a

/-- Kernel-evaluable floor; equal to `⌊·⌋` (see `qfloor_eq`). -/
def qfloor (a : ℚ) : ℤ := Rat.floor a

/-- Kernel-evaluable ceiling; equal to `⌈·⌉` (see `qceil_eq`). -/
def qceil (a : ℚ) : ℤ := -Rat.floor (-a)

/-- Chip set configuration (`CHIP_SET` in chipDistribution.js):
denomination → total physical count; 0 for unknown denominations. -/
def CHIP_SET (d : ℕ) : ℕ :=
  if d = 5 then 150
  else if d = 10 then 100
  else if d = 25 then 100
  else if d = 100 then 100
  else if d = 500 then 25
  else if d = 1000 then 25
  else 0

/-- `getAvailableDenominations()`: the keys of `CHIP_SET` sorted in
descending order. -/
def getAvailableDenominations : List ℕ := [1000, 500, 100, 25, 10, 5]

/-- The same denominations sorted ascending
(`getAvailableDenominations().sort((a, b) => a - b)` in the solver). -/
def sortedDenomsAsc : List ℕ := [5, 10, 25, 100, 500, 1000]

/-- `getChipBaseUnit()`: fold of the source's recursive Euclidean
`gcd` (which is exactly `Nat.gcd`) over all denominations; 1 when the
denomination list is empty. -/
def getChipBaseUnit : ℕ :=
  match getAvailableDenominations with
  | [] => 1
  | d :: rest => rest.foldl Nat.gcd d

/-- `Math.min(...denominations)`; JS would give `Infinity` on an empty
list, which never occurs (the configured list has six entries). -/
def jsMin (l : List ℕ) : ℕ :=
  match l with
  | [] => 0
  | h :: t => t.foldl min h

/-- JS `Math.round` on the non-negative rationals that occur here:
round half up. -/
def jround (q : ℚ) : ℤ := qfloor (qadd q (mkRat 1 2))

/-- The denomination scan inside `roundToValidBlind`: walk the
denominations in descending order; for the first denomination not
exceeding the value whose nearer multiple is within 20% of the value,
return that multiple (the `break`); otherwise keep the incoming
base-unit rounding. -/
def roundScan (denoms : List ℕ) (value : ℚ) (rounded : ℤ) : ℤ :=
  match denoms with
  | [] => rounded
  | denom :: rest =>
    if (denom : ℚ) ≤ value then
      let lowerMultiple : ℤ := qfloor (qdiv value (denom : ℚ)) * denom
      let upperMultiple : ℤ := qceil (qdiv value (denom : ℚ)) * denom
      let candidate : ℤ :=
        if qsub value (lowerMultiple : ℚ) < qsub (upperMultiple : ℚ) value then lowerMultiple
        else upperMultiple
      if qdiv (qabs (qsub (candidate : ℚ) value)) value ≤ mkRat 1 5 then candidate
      else roundScan rest value rounded
    else roundScan rest value rounded

/-- `roundToValidBlind(value)` from server/index.js: round a blind value
to the nearest value payable with the available chip denominations. -/
def roundToValidBlind (value : ℚ) : ℕ :=
  if value = 0 then 0
  else
    let baseUnit := getChipBaseUnit
    let smallestDenom := jsMin getAvailableDenominations
    let rounded : ℤ := jround (qdiv value (baseUnit : ℚ)) * baseUnit
    let rounded := roundScan getAvailableDenominations value rounded
    let rounded := if 0 < rounded ∧ rounded < (smallestDenom : ℤ) then (smallestDenom : ℤ) else rounded
    rounded.toNat

/-- A single blind level `{sb, bb, ante}` as pushed by
`generateBlindStructure`. -/
structure Level where
  sb : ℕ
  bb : ℕ
  ante : ℕ
deriving Repr, DecidableEq

/-- The speed keys of `SPEED_CONFIG`. An unknown speed string behaves
like `normal` in the source and is not modelled separately. -/
inductive Speed where
  | turbo
  | normal
  | slow
deriving Repr, DecidableEq

/-- The speed-keyed fallback `progressionFactors` (1.4 / 1.25 / 1.2)
used when the supplied blind increase rate is not greater than 1. -/
def progressionFactors (speed : Speed) : ℚ :=
  match speed with
  | .turbo => mkRat 7 5
  | .normal => mkRat 5 4
  | .slow => mkRat 6 5

/-- The validated increase rate: the caller's rate when it exceeds 1,
otherwise the speed-keyed default (source lines 141-150). -/
def effectiveRate (speed : Speed) (blindIncreaseRate : ℚ) : ℚ :=
  if 1 < blindIncreaseRate then blindIncreaseRate else progressionFactors speed

/-- The big blind pushed for the current level: the rounded value,
forced up to the next multiple of the base unit above `previousBB` when
rounding did not strictly increase it (source lines 162-170). -/
def nextBB (level previousBB rounded : ℕ) : ℕ :=
  if 0 < level ∧ rounded ≤ previousBB then
    previousBB / getChipBaseUnit * getChipBaseUnit + getChipBaseUnit
  else rounded

/-- The level-generation `while (currentBB < maxBlind)` loop of
`generateBlindStructure`, with explicit fuel: `none` means the fuel ran
out while the loop condition still held (the JS loop has no iteration
cap, so the embedding proves separately that enough fuel always
exists). -/
def blindLoop (maxBlind rate : ℚ) (bbaStartLevel : ℕ) :
    ℕ → ℚ → ℕ → ℕ → Option (List Level)
  | 0, currentBB, _, _ => if currentBB < maxBlind then none else some []
  | fuel + 1, currentBB, level, previousBB =>
    if currentBB < maxBlind then
      let bb := nextBB level previousBB (roundToValidBlind currentBB)
      let sb := roundToValidBlind (qdiv (bb : ℚ) 2)
      let levelNumber := level + 1
      let ante := if bbaStartLevel ≤ levelNumber then bb else 0
      (blindLoop maxBlind rate bbaStartLevel fuel (qmul (bb : ℚ) rate) (level + 1) bb).map
        (fun rest => { sb := sb, bb := bb, ante := ante } :: rest)
    else some []

/-- Fuel that always suffices for `blindLoop` (proved below): the big
blind grows by at least one chip each level, and the loop stops at
`2 * startingStack`. -/
def blindFuel (startingStack : ℕ) : ℕ := 2 * startingStack + 2

/-- `generateBlindStructure(startingStack, speed, startingBlindDepth,
blindIncreaseRate, bbaStartLevel)` from server/index.js, returning the
list of levels (the timing metadata merged from `SPEED_CONFIG` is
pass-through and not modelled). -/
def generateBlindStructure (startingStack : ℕ) (speed : Speed)
    (startingBlindDepth : ℕ) (blindIncreaseRate : ℚ) (bbaStartLevel : ℕ) :
    List Level :=
  let initialBB := startingStack / startingBlindDepth
  let increaseRate := effectiveRate speed blindIncreaseRate
  let maxBlind : ℚ := qmul (startingStack : ℚ) 2
  (blindLoop maxBlind increaseRate bbaStartLevel (blindFuel startingStack)
    (initialBB : ℚ) 0 0).getD []

/-! ## Capacity calculator and starting-stack selector (server/index.js) -/

/-- The body of `calculateMaxAchievableStack`, parameterised by the
total entry count (the source only uses its two arguments through
`maxPossibleEntries`).  With zero entries the JS `Math.floor(count / 0)`
is `Infinity` for every positive chip count and the sum, flooring and
multiplication propagate it; the non-finite result is modelled as
`none`. -/
def maxAchievableForEntries (maxPossibleEntries : ℕ) : Option ℕ :=
  if maxPossibleEntries = 0 then none
  else
    -- source: for each denomination (descending), floor(CHIP_SET[d] / entries) * d
    let maxStack := (getAvailableDenominations.map
      (fun denom => CHIP_SET denom / maxPossibleEntries * denom)).sum
    -- round down to nearest 10 to account for distribution inefficiencies
    some (maxStack / 10 * 10)

/-- `calculateMaxAchievableStack(maxPlayers, maxReentries)`. -/
def calculateMaxAchievableStack (maxPlayers maxReentries : ℕ) : Option ℕ :=
  maxAchievableForEntries (maxPlayers * (maxReentries + 1))

/-- The body of `calculateStartingStack`, parameterised by the total
entry count; `none` again models the `Infinity` produced when
`maxEntries` is zero (it propagates through `Math.min`, `Math.floor`
and `Math.max`). -/
def startingStackForEntries (maxPossibleEntries : ℕ) : Option ℕ :=
  match maxAchievableForEntries maxPossibleEntries with
  | none => none
  | some maxAchievableStack =>
    let totalChipValue := (sortedDenomsAsc.map (fun d => d * CHIP_SET d)).sum
    let theoreticalPerEntry := totalChipValue / maxPossibleEntries
    let perEntry := min maxAchievableStack theoreticalPerEntry
    let roundedStack := perEntry / 100 * 100
    let finalStack := min roundedStack maxAchievableStack
    let smallestDenom := jsMin sortedDenomsAsc
    some (max smallestDenom finalStack)

/-- `calculateStartingStack(maxPlayers, maxReentries)`. -/
def calculateStartingStack (maxPlayers maxReentries : ℕ) : Option ℕ :=
  startingStackForEntries (maxPlayers * (maxReentries + 1))

/-! ## Minimum-liquidity estimator (chipDistribution.js) -/

/-- Pointwise map update, modelling `obj[key] = value` on the JS maps
(denomination → count); a count of 0 is identified with an absent key. -/
def updD (m : ℕ → ℕ) (d v : ℕ) : ℕ → ℕ := fun x => if x = d then v else m x

/-- Insertion into a descending-sorted list (for `[...a].sort((x, y) => y - x)`). -/
def insertDesc (x : ℕ) : List ℕ → List ℕ
  | [] => [x]
  | y :: ys => if y ≤ x then x :: y :: ys else y :: insertDesc x ys

/-- `[...denominations].sort((a, b) => b - a)`. -/
def sortDescList : List ℕ → List ℕ
  | [] => []
  | x :: xs => insertDesc x (sortDescList xs)

/-- Insertion into an ascending-sorted list (for `[...a].sort((x, y) => x - y)`). -/
def insertAsc (x : ℕ) : List ℕ → List ℕ
  | [] => [x]
  | y :: ys => if x ≤ y then x :: y :: ys else y :: insertAsc x ys

/-- `[...denominations].sort((a, b) => a - b)`. -/
def sortAscList : List ℕ → List ℕ
  | [] => []
  | x :: xs => insertAsc x (sortAscList xs)

/-- The "larger denominations for the remainder" loop of
`calculateMinChipsForAmount` (largest first, skipping the base unit). -/
def greedyRemainderScan (baseUnit : ℕ) : List ℕ → (ℕ → ℕ) → ℕ → (ℕ → ℕ) × ℕ
  | [], chips, remaining => (chips, remaining)
  | denom :: rest, chips, remaining =>
    if remaining = 0 then (chips, remaining)
    else if denom ≤ baseUnit then greedyRemainderScan baseUnit rest chips remaining
    else if denom ≤ remaining then
      let count := remaining / denom
      if 0 < count then
        greedyRemainderScan baseUnit rest (updD chips denom count) (remaining - count * denom)
      else greedyRemainderScan baseUnit rest chips remaining
    else greedyRemainderScan baseUnit rest chips remaining

/-- `calculateMinChipsForAmount(amount, denominations)`: minimum chips
needed to pay an exact amount, always preferring the base unit.  (The
source's `amount < 0` early return is unreachable for the `ℕ` amounts
that occur.) -/
def calculateMinChipsForAmount (amount : ℕ) (denominations : List ℕ) : ℕ → ℕ :=
  if amount = 0 then fun _ => 0
  else
    let baseUnit := getChipBaseUnit
    if amount % baseUnit = 0 then updD (fun _ => 0) baseUnit (amount / baseUnit)
    else
      let chips : ℕ → ℕ := fun _ => 0
      let start :=
        if baseUnit ≤ amount then
          (updD chips baseUnit (amount / baseUnit), amount - amount / baseUnit * baseUnit)
        else (chips, amount)
      let scanned := greedyRemainderScan baseUnit (sortDescList denominations) start.1 start.2
      if 0 < scanned.2 then
        updD scanned.1 baseUnit (scanned.1 baseUnit + (scanned.2 + baseUnit - 1) / baseUnit)
      else scanned.1

/-- Merge of one `calculateMinChipsForAmount` result into the
accumulating per-denomination maxima.  The JS iterates the entries of
`chips` (whose stored counts are all positive); taking the pointwise
`max` agrees because `max a 0 = a` for absent keys. -/
def mergeMaxChips (acc chips : ℕ → ℕ) : ℕ → ℕ := fun d => max (acc d) (chips d)

/-- Per-level contribution inside `calculateMinChipsForBlinds`: the
small blind, big blind and ante are decomposed independently. -/
def levelMinChips (denominations : List ℕ) (acc : ℕ → ℕ) (level : Level) : ℕ → ℕ :=
  let acc1 := if 0 < level.sb then mergeMaxChips acc (calculateMinChipsForAmount level.sb denominations) else acc
  let acc2 := if 0 < level.bb then mergeMaxChips acc1 (calculateMinChipsForAmount level.bb denominations) else acc1
  if 0 < level.ante then mergeMaxChips acc2 (calculateMinChipsForAmount level.ante denominations) else acc2

/-- The `needsSmallest` test of `calculateMinChipsForBlinds`. -/
def needsSmallest (smallestDenom : ℕ) (level : Level) : Bool :=
  (decide (0 < level.sb) && decide (level.sb % smallestDenom = 0) && decide (level.sb < smallestDenom * 10)) ||
  (decide (0 < level.bb) && decide (level.bb % smallestDenom = 0) && decide (level.bb < smallestDenom * 10)) ||
  (decide (0 < level.ante) && decide (level.ante % smallestDenom = 0) && decide (level.ante < smallestDenom * 10))

/-- The "ensure we always allocate the smallest denomination" scan: the
first early level that needs it sets the floor and breaks. -/
def ensureSmallestScan (smallestDenom bufferMultiplier : ℕ) : List Level → (ℕ → ℕ) → (ℕ → ℕ)
  | [], m => m
  | level :: rest, m =>
    if needsSmallest smallestDenom level then
      let bbOrDefault := if level.bb = 0 then smallestDenom * 2 else level.bb
      updD m smallestDenom
        (max (m smallestDenom) ((bbOrDefault + smallestDenom - 1) / smallestDenom * bufferMultiplier))
    else ensureSmallestScan smallestDenom bufferMultiplier rest m

/-- `calculateMinChipsForBlinds(blindStructure, denominations,
maxPossibleEntries)` (the third parameter is unused in the source too).
Returns the per-denomination liquidity floor derived from the first 12
levels, with the 6× buffer applied to denominations up to 100. -/
def calculateMinChipsForBlinds (blindStructure : Option (List Level))
    (denominations : List ℕ) (maxPossibleEntries : ℕ) : ℕ → ℕ :=
  match blindStructure with
  | none => fun _ => 0
  | some levels =>
    if levels = [] then fun _ => 0
    else
      let sortedAsc := sortAscList denominations
      let baseUnit := getChipBaseUnit
      let smallestDenom := jsMin denominations
      let earlyLevels := levels.take (min 12 levels.length)
      let m := earlyLevels.foldl (levelMinChips denominations) (fun _ => 0)
      let bufferMultiplier := 6
      -- buffer: players pay blinds repeatedly (Math.ceil is the identity here)
      let m := sortedAsc.foldl (fun acc denom =>
        if 0 < acc denom ∧ denom ≤ 100 then updD acc denom (acc denom * bufferMultiplier) else acc) m
      if baseUnit = smallestDenom ∧ m smallestDenom = 0 then
        ensureSmallestScan smallestDenom bufferMultiplier earlyLevels m
      else m

/-! ## Chip distribution solver (chipDistribution.js, lines 326-823)

The solver state is the per-entry distribution map together with the
source's tracked `totalDistributed`.  The tracked total is carried as an
`ℤ` so that the transient negative differences appearing in the JS
(`gap`, `remainingExcess`) are represented exactly. -/

/-- Distribution map plus the tracked `totalDistributed`. -/
structure SolveState where
  dist : ℕ → ℕ
  total : ℤ

/-- Step 3: start with max chips per entry for all denominations. -/
def seedMaxChips (cap : ℕ → ℕ) : SolveState :=
  sortedDenomsAsc.foldl (fun st denom =>
    if 0 < cap denom then ⟨updD st.dist denom (cap denom), st.total + cap denom * denom⟩ else st)
    ⟨fun _ => 0, 0⟩

/-- Step 4: ensure the liquidity minima are allocated, capped at the
per-entry capacity. -/
def ensureMinChips (cap minChips : ℕ → ℕ) (st : SolveState) : SolveState :=
  sortedDenomsAsc.foldl (fun st denom =>
    let minNeeded := minChips denom
    let alreadyAllocated := st.dist denom
    if alreadyAllocated < minNeeded then
      let additionalNeeded := minNeeded - alreadyAllocated
      let chipsAvailable := cap denom - alreadyAllocated
      let chipsToAdd := min additionalNeeded chipsAvailable
      if 0 < chipsToAdd then
        ⟨updD st.dist denom (st.dist denom + chipsToAdd), st.total + chipsToAdd * denom⟩
      else st
    else st) st

/-- The removal-collecting loops of Step 5 (both the largest-first pass
and the ascending second pass have this body; in the first pass the
accumulated `toRemove` entries are all zero, making the plain JS
assignment and the `+` accumulation agree). -/
def reduceCollect (minChips dist : ℕ → ℕ) : List ℕ → (ℕ → ℕ) → ℕ → (ℕ → ℕ) × ℕ
  | [], toRemove, remainingExcess => (toRemove, remainingExcess)
  | denom :: rest, toRemove, remainingExcess =>
    if remainingExcess = 0 then (toRemove, remainingExcess)
    else if dist denom = 0 then reduceCollect minChips dist rest toRemove remainingExcess
    else
      let minRequired := minChips denom
      let preserveForSwaps := 1
      let canRemove := dist denom - max minRequired preserveForSwaps - toRemove denom
      if 0 < canRemove ∧ denom ≤ remainingExcess then
        let idealCount := remainingExcess / denom
        let count := min canRemove idealCount
        if 0 < count then
          reduceCollect minChips dist rest (updD toRemove denom (toRemove denom + count))
            (remainingExcess - count * denom)
        else reduceCollect minChips dist rest toRemove remainingExcess
      else reduceCollect minChips dist rest toRemove remainingExcess

/-- Apply a collected removal map to the state (`Object.entries`
iterates the numeric keys in ascending order; zero-count entries are
never stored). -/
def applyRemovals (st : SolveState) (toRemove : ℕ → ℕ) : SolveState :=
  sortedDenomsAsc.foldl (fun st denom =>
    if 0 < toRemove denom then
      ⟨updD st.dist denom (st.dist denom - toRemove denom), st.total - toRemove denom * denom⟩
    else st) st

/-- The "can't remove enough base units" fallback: remove one chip of
the first larger multiple that is above its blind minimum, then break. -/
def removeOneLarger (minChips : ℕ → ℕ) : List ℕ → SolveState → SolveState
  | [], st => st
  | denom :: rest, st =>
    if st.dist denom = 0 then removeOneLarger minChips rest st
    else if minChips denom < st.dist denom then
      ⟨updD st.dist denom (st.dist denom - 1), st.total - denom⟩
    else removeOneLarger minChips rest st

/-- The small-remainder branch of Step 5 (`remainingExcess ≤ 5·baseUnit`):
remove base units exactly, or else one larger chip. -/
def handleSmallRemainder (minChips : ℕ → ℕ) (baseUnit : ℕ) (multiplesDesc : List ℕ)
    (st : SolveState) (remainingExcess : ℕ) : SolveState :=
  let minRequired := minChips baseUnit
  let canRemove := st.dist baseUnit - minRequired
  let needed := (remainingExcess + baseUnit - 1) / baseUnit
  if needed ≤ canRemove then
    ⟨updD st.dist baseUnit (st.dist baseUnit - needed), st.total - needed * baseUnit⟩
  else removeOneLarger minChips multiplesDesc st

/-- The large-remainder branch of Step 5: standard largest-first removal
over all denominations; the running remainder may overshoot below zero,
which ends the loop. -/
def reduceLargeRemainder (minChips : ℕ → ℕ) : List ℕ → SolveState → ℤ → SolveState
  | [], st, _ => st
  | denom :: rest, st, remainingExcess =>
    if remainingExcess ≤ 0 then st
    else if st.dist denom = 0 then reduceLargeRemainder minChips rest st remainingExcess
    else
      let canRemove := st.dist denom - minChips denom
      if 0 < canRemove then
        let idealChipsToRemove := remainingExcess.toNat / denom
        let chipsToRemove := min canRemove
          (if 0 < idealChipsToRemove then idealChipsToRemove
           else (remainingExcess.toNat + denom - 1) / denom)
        if 0 < chipsToRemove then
          reduceLargeRemainder minChips rest
            ⟨updD st.dist denom (st.dist denom - chipsToRemove), st.total - chipsToRemove * denom⟩
            (remainingExcess - chipsToRemove * denom)
        else reduceLargeRemainder minChips rest st remainingExcess
      else reduceLargeRemainder minChips rest st remainingExcess

/-- Step 5 (reduce if over target), assembled. -/
def reducePhase (minChips : ℕ → ℕ) (targetStack baseUnit : ℕ) (st : SolveState) : SolveState :=
  let excess := (st.total - targetStack).toNat
  -- multiples of the base unit other than the base unit itself, largest
  -- first (the ascending master list filtered, then reversed)
  let multiplesOfBaseUnit := (sortedDenomsAsc.filter
    (fun d => decide (d % baseUnit = 0) && decide (d ≠ baseUnit))).reverse
  let collectA := reduceCollect minChips st.dist multiplesOfBaseUnit (fun _ => 0) excess
  let collectB :=
    if 0 < collectA.2 then
      -- still excess: remaining multiples, smallest first
      let smallerMultiples := (multiplesOfBaseUnit.filter (fun d => collectA.1 d = 0)).reverse
      reduceCollect minChips st.dist smallerMultiples collectA.1 collectA.2
    else collectA
  let st := applyRemovals st collectB.1
  let remainingExcess := collectB.2
  if 0 < remainingExcess then
    if remainingExcess ≤ baseUnit * 5 then
      handleSmallRemainder minChips baseUnit multiplesOfBaseUnit st remainingExcess
    else reduceLargeRemainder minChips (sortedDenomsAsc.reverse) st (remainingExcess : ℤ)
  else st

/-- The ascending scan that looks for smaller chips to remove in the
swap branch of the gap-filling pass; returns the removal map and the
total value it frees.  Breaks at the first denomination not smaller
than the one being added, or once enough value is found. -/
def swapScanAsc (minChips dist : ℕ → ℕ) (denom excess : ℕ) :
    List ℕ → (ℕ → ℕ) → ℕ → (ℕ → ℕ) × ℕ
  | [], toRemove, canRemove => (toRemove, canRemove)
  | smallerDenom :: rest, toRemove, canRemove =>
    if denom ≤ smallerDenom then (toRemove, canRemove)
    else if excess ≤ canRemove then (toRemove, canRemove)
    else
      let available := dist smallerDenom
      let minRequired := minChips smallerDenom
      let canRemoveFromThis := available - minRequired
      if 0 < canRemoveFromThis then
        let stillNeeded := excess - canRemove
        let needed := (stillNeeded + smallerDenom - 1) / smallerDenom
        let toRemoveHere := min canRemoveFromThis needed
        if 0 < toRemoveHere then
          swapScanAsc minChips dist denom excess rest
            (updD toRemove smallerDenom toRemoveHere) (canRemove + toRemoveHere * smallerDenom)
        else swapScanAsc minChips dist denom excess rest toRemove canRemove
      else swapScanAsc minChips dist denom excess rest toRemove canRemove

/-- The largest-to-smallest adding pass of the gap-filling loop
(direct adds, single adds, and add-one-remove-smaller swaps). -/
def addPassDesc (cap minChips : ℕ → ℕ) (target : ℕ) :
    List ℕ → SolveState → Bool → SolveState × Bool
  | [], st, progress => (st, progress)
  | denom :: rest, st, progress =>
    if (target : ℤ) ≤ st.total then (st, progress)
    else
      let alreadyAllocated := st.dist denom
      let chipsAvailable := cap denom - alreadyAllocated
      if 0 < chipsAvailable then
        let gap := ((target : ℤ) - st.total).toNat
        let maxToAdd := gap / denom
        let chipsToAdd := min chipsAvailable maxToAdd
        if 0 < maxToAdd ∧ st.total + (chipsToAdd * denom : ℕ) ≤ (target : ℤ) then
          -- add directly and continue with the next denomination
          addPassDesc cap minChips target rest
            ⟨updD st.dist denom (st.dist denom + chipsToAdd), st.total + (chipsToAdd * denom : ℕ)⟩ true
        else if st.total + (denom : ℕ) ≤ (target : ℤ) then
          -- can add one directly
          addPassDesc cap minChips target rest
            ⟨updD st.dist denom (st.dist denom + 1), st.total + (denom : ℕ)⟩ true
        else
          -- would exceed: swap, removing smaller chips above their floors
          let excess := (st.total + (denom : ℕ) - target).toNat
          let scan := swapScanAsc minChips st.dist denom excess sortedDenomsAsc (fun _ => 0) 0
          if excess ≤ scan.2 then
            let st1 := applyRemovals st scan.1
            addPassDesc cap minChips target rest
              ⟨updD st1.dist denom (st1.dist denom + 1), st1.total + (denom : ℕ)⟩ true
          else addPassDesc cap minChips target rest st progress
      else addPassDesc cap minChips target rest st progress

/-- The fallback smallest-first pass: add to the first denomination
that still has capacity and fits the gap, then break. -/
def addFirstAsc (cap : ℕ → ℕ) (target : ℕ) : List ℕ → SolveState → SolveState × Bool
  | [], st => (st, false)
  | denom :: rest, st =>
    if (target : ℤ) ≤ st.total then (st, false)
    else
      let alreadyAllocated := st.dist denom
      let chipsAvailable := cap denom - alreadyAllocated
      if 0 < chipsAvailable then
        let gap := ((target : ℤ) - st.total).toNat
        let maxToAdd := gap / denom
        if 0 < maxToAdd then
          let chipsToAdd := min chipsAvailable maxToAdd
          (⟨updD st.dist denom (st.dist denom + chipsToAdd), st.total + (chipsToAdd * denom : ℕ)⟩, true)
        else addFirstAsc cap target rest st
      else addFirstAsc cap target rest st

/-- The small-gap swap pass: trade one chip above the base unit for
enough base-unit chips to close the gap, then break. -/
def swapForSmallGap (cap : ℕ → ℕ) (baseUnit target : ℕ) : List ℕ → SolveState → SolveState × Bool
  | [], st => (st, false)
  | denom :: rest, st =>
    if denom ≤ baseUnit then swapForSmallGap cap baseUnit target rest st
    else if (target : ℤ) ≤ st.total then (st, false)
    else
      let available := st.dist denom
      if 0 < available then
        let gap := ((target : ℤ) - st.total).toNat
        let baseUnitsAvailable := cap baseUnit - st.dist baseUnit
        let baseUnitsNeeded := (denom + gap + baseUnit - 1) / baseUnit
        if baseUnitsNeeded ≤ baseUnitsAvailable then
          (⟨updD (updD st.dist denom (st.dist denom - 1)) baseUnit (st.dist baseUnit + baseUnitsNeeded),
            st.total - (denom : ℕ) + (baseUnitsNeeded * baseUnit : ℕ)⟩, true)
        else swapForSmallGap cap baseUnit target rest st
      else swapForSmallGap cap baseUnit target rest st

/-- One iteration of the gap-filling `while` loop: the three passes in
order, later passes only when the earlier ones made no progress. -/
def fillPass (cap minChips : ℕ → ℕ) (target baseUnit : ℕ) (st : SolveState) : SolveState × Bool :=
  let r1 := addPassDesc cap minChips target (sortedDenomsAsc.reverse) st false
  let r2 := if r1.2 then r1 else addFirstAsc cap target sortedDenomsAsc r1.1
  if r2.2 then r2
  else if r2.1.total < (target : ℤ) ∧ (target : ℤ) - r2.1.total < ((baseUnit * 2 : ℕ) : ℤ) then
    swapForSmallGap cap baseUnit target sortedDenomsAsc r2.1
  else r2

/-- The bounded gap-filling loop (`maxIterations = 200`); stops early
when a pass makes no progress or fails to shrink the gap. -/
def fillLoop (cap minChips : ℕ → ℕ) (target baseUnit : ℕ) : ℕ → SolveState → SolveState
  | 0, st => st
  | fuel + 1, st =>
    if st.total < (target : ℤ) then
      let gapBefore := (target : ℤ) - st.total
      let r := fillPass cap minChips target baseUnit st
      if !r.2 || gapBefore ≤ (target : ℤ) - r.1.total then r.1
      else fillLoop cap minChips target baseUnit fuel r.1
    else st

/-- The final "if still over" removal loop (lines 687-716); the source
updates only the distribution and the local `excess` here, recomputing
the total afterwards. -/
def finalReduce (minChips : ℕ → ℕ) : List ℕ → (ℕ → ℕ) → ℤ → (ℕ → ℕ)
  | [], dist, _ => dist
  | denom :: rest, dist, excess =>
    if excess ≤ 0 then dist
    else if dist denom = 0 then finalReduce minChips rest dist excess
    else
      let canRemove := dist denom - minChips denom
      if 0 < canRemove then
        let chipsToRemove := min canRemove ((excess.toNat + denom - 1) / denom)
        if 0 < chipsToRemove then
          finalReduce minChips rest (updD dist denom (dist denom - chipsToRemove))
            (excess - chipsToRemove * denom)
        else finalReduce minChips rest dist excess
      else finalReduce minChips rest dist excess

/-- The swap attempted when no base units can be added and the final
gap equals one base unit (lines 738-765).  It only considers the
denomination equal to twice the base unit; the stale `alreadyAllocated`
capture makes `canAdd` zero in the reachable case, so the removal is
always reverted — the transcription keeps the behaviour verbatim. -/
def deadEndSwap (cap minChips : ℕ → ℕ) (baseUnit alreadyAllocated : ℕ) :
    List ℕ → SolveState → SolveState
  | [], st => st
  | denom :: rest, st =>
    if denom = baseUnit then deadEndSwap cap minChips baseUnit alreadyAllocated rest st
    else if denom ≠ baseUnit * 2 then deadEndSwap cap minChips baseUnit alreadyAllocated rest st
    else
      let available := st.dist denom
      if 0 < available ∧ minChips denom < available then
        let st1 : SolveState := ⟨updD st.dist denom (st.dist denom - 1), st.total - (denom : ℕ)⟩
        let baseUnitsToAdd := denom / baseUnit
        let canAdd := min baseUnitsToAdd (cap baseUnit - alreadyAllocated)
        if baseUnitsToAdd ≤ canAdd then
          ⟨updD st1.dist baseUnit (st1.dist baseUnit + baseUnitsToAdd),
            st1.total + (baseUnitsToAdd * baseUnit : ℕ)⟩
        else
          deadEndSwap cap minChips baseUnit alreadyAllocated rest
            ⟨updD st1.dist denom (st1.dist denom + 1), st1.total + (denom : ℕ)⟩
      else deadEndSwap cap minChips baseUnit alreadyAllocated rest st

/-- The last "try one more time with any available chips" loop
(lines 769-784). -/
def topUpAsc (cap : ℕ → ℕ) (target : ℕ) : List ℕ → SolveState → SolveState
  | [], st => st
  | denom :: rest, st =>
    if (target : ℤ) - st.total ≤ 0 then st
    else
      let alreadyAllocated := st.dist denom
      let chipsAvailable := cap denom - alreadyAllocated
      let finalGap := ((target : ℤ) - st.total).toNat
      if 0 < chipsAvailable ∧ denom ≤ finalGap then
        let chipsToAdd := min chipsAvailable (finalGap / denom)
        if 0 < chipsToAdd then
          topUpAsc cap target rest
            ⟨updD st.dist denom (st.dist denom + chipsToAdd), st.total + (chipsToAdd * denom : ℕ)⟩
        else topUpAsc cap target rest st
      else topUpAsc cap target rest st

/-- The final small-gap top-up phase (lines 723-820).  The trailing
source block at lines 788-819 computes values but performs no state
mutation (its loop body is commentary only) and is therefore omitted. -/
def finalTopUpPhase (cap minChips : ℕ → ℕ) (target baseUnit : ℕ) (st : SolveState) : SolveState :=
  let finalGap := (target : ℤ) - st.total
  if 0 < finalGap ∧ finalGap < ((baseUnit * 5 : ℕ) : ℤ) then
    let alreadyAllocated := st.dist baseUnit
    let chipsAvailable := cap baseUnit - alreadyAllocated
    let chipsNeeded := (finalGap.toNat + baseUnit - 1) / baseUnit
    let st1 :=
      if chipsNeeded ≤ chipsAvailable then
        ⟨updD st.dist baseUnit (st.dist baseUnit + chipsNeeded),
          st.total + (chipsNeeded * baseUnit : ℕ)⟩
      else if chipsAvailable = 0 ∧ finalGap = (baseUnit : ℤ) then
        deadEndSwap cap minChips baseUnit alreadyAllocated sortedDenomsAsc st
      else st
    if 0 < (target : ℤ) - st1.total then topUpAsc cap target sortedDenomsAsc st1 else st1
  else st

/-- The value of a distribution, `Σ denom · count` (the JS
`Object.entries` reduce; every stored key is a configured
denomination). -/
def sumDist (dist : ℕ → ℕ) : ℕ := (sortedDenomsAsc.map (fun d => d * dist d)).sum

/-- Steps 3 to 5 and the final verification of
`calculateChipDistribution`, given the per-entry capacity and the
liquidity floors. -/
def runSolverPhases (maxChipsPerEntry minChipsForBlinds : ℕ → ℕ)
    (targetStack baseUnit : ℕ) : ℕ → ℕ :=
  -- Steps 3 and 4
  let st := seedMaxChips maxChipsPerEntry
  let st := ensureMinChips maxChipsPerEntry minChipsForBlinds st
  -- Step 5: adjust to reach the exact starting stack
  let st := if (targetStack : ℤ) < st.total then reducePhase minChipsForBlinds targetStack baseUnit st else st
  let st := if st.total < (targetStack : ℤ) then fillLoop maxChipsPerEntry minChipsForBlinds targetStack baseUnit 200 st else st
  -- final verification: recompute the total from the distribution
  let st : SolveState := ⟨st.dist, (sumDist st.dist : ℤ)⟩
  let distAfter :=
    if (targetStack : ℤ) < st.total then
      finalReduce minChipsForBlinds (sortedDenomsAsc.reverse) st.dist (st.total - targetStack)
    else st.dist
  let st : SolveState := ⟨distAfter, (sumDist distAfter : ℤ)⟩
  (finalTopUpPhase maxChipsPerEntry minChipsForBlinds targetStack baseUnit st).dist

/-- The whole of `calculateChipDistribution`, parameterised by the
total entry count (the source only ever uses `numPlayers` and
`maxReentries` through `maxPossibleEntries`). -/
def solveDistribution (startingStack maxPossibleEntries : ℕ)
    (blindStructure : Option (List Level)) : ℕ → ℕ :=
  let baseUnit := getChipBaseUnit
  -- Step 1: max chips per entry for each denomination
  let maxChipsPerEntry : ℕ → ℕ := fun denom => CHIP_SET denom / maxPossibleEntries
  -- Step 2: minimum chips needed for blinds
  let minChips0 := calculateMinChipsForBlinds blindStructure sortedDenomsAsc maxPossibleEntries
  -- always keep a few base units for flexibility
  let minChipsForBlinds :=
    if minChips0 baseUnit = 0 then
      let minBaseUnits := min 10 (maxChipsPerEntry baseUnit)
      if 0 < minBaseUnits then updD minChips0 baseUnit minBaseUnits else minChips0
    else minChips0
  runSolverPhases maxChipsPerEntry minChipsForBlinds startingStack baseUnit

/-- `calculateChipDistribution(startingStack, numPlayers,
blindStructure, maxReentries)` from chipDistribution.js. -/
def calculateChipDistribution (startingStack numPlayers : ℕ)
    (blindStructure : Option (List Level)) (maxReentries : ℕ) : ℕ → ℕ :=
  solveDistribution startingStack (numPlayers * (maxReentries + 1)) blindStructure

/-! ## The computable wrappers agree with the standard operations -/

theorem qadd_eq (a b : ℚ) : qadd a b = a + b := (Rat.add_def' a b).symm

theorem qsub_eq (a b : ℚ) : qsub a b = a - b := (Rat.sub_def' a b).symm

theorem qmul_eq (a b : ℚ) : qmul a b = a * b := by
  rw [qmul, Rat.mul_def, Rat.normalize_eq_mkRat]

theorem qdiv_eq (a b : ℚ) : qdiv a b = a / b := by
  rw [qdiv, qmul_eq, Rat.div_def, Rat.inv_def]

theorem qabs_eq (a : ℚ) : qabs a = |a| := by
  rw [qabs]
  by_cases h : a.num < 0
  · rw [if_pos h, abs_of_neg (by exact_mod_cast Rat.num_neg.mp h)]
  · rw [if_neg h, abs_of_nonneg (by exact_mod_cast Rat.num_nonneg.mp (not_lt.mp h))]

theorem qfloor_eq (a : ℚ) : qfloor a = ⌊a⌋ := by
  rw [qfloor, Rat.floor_def' a, Rat.floor_def]

theorem qceil_eq (a : ℚ) : qceil a = ⌈a⌉ := by
  rw [qceil, Rat.floor_def' (-a), ← Rat.floor_def, Int.floor_neg, neg_neg]

/-! ## Facts about the blind rounding -/

theorem getChipBaseUnit_eq : getChipBaseUnit = 5 := by decide

theorem dvd_toNat_of_dvd {n : ℕ} {z : ℤ} (h : (n : ℤ) ∣ z) : n ∣ z.toNat := by
  rcases z with m | m
  · show n ∣ m
    have hm : (n : ℤ) ∣ (m : ℤ) := h
    exact_mod_cast hm
  · exact dvd_zero n

theorem dvd_roundScan {l : List ℕ} (hl : ∀ x ∈ l, 5 ∣ x) (v : ℚ) {r : ℤ}
    (hr : (5 : ℤ) ∣ r) : (5 : ℤ) ∣ roundScan l v r := by
  induction l with
  | nil => exact hr
  | cons d rest ih =>
    have hd : (5 : ℤ) ∣ (d : ℤ) := Int.natCast_dvd_natCast.mpr (hl d (by simp))
    have hrest : ∀ x ∈ rest, 5 ∣ x := fun x hx => hl x (by simp [hx])
    simp only [roundScan]
    split_ifs <;>
      first
        | exact Dvd.dvd.mul_left hd _
        | exact ih hrest

theorem roundToValidBlind_dvd (v : ℚ) : 5 ∣ roundToValidBlind v := by
  have hb : ((getChipBaseUnit : ℕ) : ℤ) = 5 := by decide
  have hscan : (5 : ℤ) ∣ roundScan getAvailableDenominations v
      (jround (qdiv v ((getChipBaseUnit : ℕ) : ℚ)) * ((getChipBaseUnit : ℕ) : ℤ)) := by
    apply dvd_roundScan (by decide)
    rw [hb]
    exact dvd_mul_left 5 _
  simp only [roundToValidBlind]
  split_ifs with h0 h1
  · exact dvd_zero 5
  · decide
  · exact dvd_toNat_of_dvd hscan

theorem roundScan_ge {l : List ℕ} (hl : ∀ x ∈ l, 5 ≤ x) {v : ℚ} {r : ℤ}
    (hr : 5 ≤ r) : 5 ≤ roundScan l v r := by
  induction l with
  | nil => exact hr
  | cons d rest ih =>
    have hrest : ∀ x ∈ rest, 5 ≤ x := fun x hx => hl x (by simp [hx])
    have hd : 5 ≤ d := hl d (by simp)
    have hd5 : (5 : ℤ) ≤ (d : ℤ) := by exact_mod_cast hd
    have hdpos : (0 : ℚ) < (d : ℚ) := by exact_mod_cast show 0 < d by omega
    have hkey : ∀ k : ℤ, 1 ≤ k → 5 ≤ k * d := by
      intro k hk
      have hd0 : (0 : ℤ) ≤ (d : ℤ) := by positivity
      nlinarith
    have hflc : (d : ℚ) ≤ v → 1 ≤ ⌊v / (d : ℚ)⌋ := fun h1 =>
      Int.le_floor.mpr (by rw [Int.cast_one]; exact (one_le_div hdpos).mpr h1)
    simp only [roundScan, qfloor_eq, qceil_eq, qdiv_eq]
    split_ifs <;>
      first
        | exact ih hrest
        | exact hkey _ (hflc (by assumption))
        | exact hkey _ (le_trans (hflc (by assumption)) (Int.floor_le_ceil _))

theorem roundToValidBlind_cast_ge {n : ℕ} (h : 3 ≤ n) : 5 ≤ roundToValidBlind ((n : ℕ) : ℚ) := by
  have hv0 : ¬ ((n : ℕ) : ℚ) = 0 := by
    exact_mod_cast show ¬ n = 0 by omega
  have hvpos : (0 : ℚ) < ((n : ℕ) : ℚ) := by exact_mod_cast show 0 < n by omega
  have hb : ((getChipBaseUnit : ℕ) : ℚ) = 5 := by norm_num [getChipBaseUnit_eq]
  have hbz : ((getChipBaseUnit : ℕ) : ℤ) = 5 := by decide
  have hbase : 5 ≤ jround (qdiv ((n : ℕ) : ℚ) ((getChipBaseUnit : ℕ) : ℚ)) * ((getChipBaseUnit : ℕ) : ℤ) := by
    have hji : 1 ≤ jround (qdiv ((n : ℕ) : ℚ) ((getChipBaseUnit : ℕ) : ℚ)) := by
      rw [jround, qfloor_eq, qadd_eq, qdiv_eq, hb]
      apply Int.le_floor.mpr
      rw [Int.cast_one]
      have h3 : (3 : ℚ) ≤ ((n : ℕ) : ℚ) := by exact_mod_cast h
      have hhalf : mkRat 1 2 = (1 : ℚ) / 2 := by
        rw [Rat.mkRat_eq_div]
        norm_num
      rw [hhalf]
      linarith
    rw [hbz]
    nlinarith
  have hscan : 5 ≤ roundScan getAvailableDenominations ((n : ℕ) : ℚ)
      (jround (qdiv ((n : ℕ) : ℚ) ((getChipBaseUnit : ℕ) : ℚ)) * ((getChipBaseUnit : ℕ) : ℤ)) :=
    roundScan_ge (by decide) hbase
  simp only [roundToValidBlind, if_neg hv0]
  split_ifs with h1
  · decide
  · omega

/-! ## Facts about the generated blind structure -/

theorem nextBB_gt {level previousBB rounded : ℕ} (h : 0 < level) :
    previousBB < nextBB level previousBB rounded := by
  unfold nextBB
  rw [getChipBaseUnit_eq]
  split_ifs with h1
  · omega
  · omega

theorem nextBB_pos {level previousBB rounded : ℕ} (h : 0 < level ∨ 0 < rounded) :
    0 < nextBB level previousBB rounded := by
  unfold nextBB
  rw [getChipBaseUnit_eq]
  split_ifs with h1
  · omega
  · rcases h with h | h
    · omega
    · exact h

theorem nextBB_dvd {level previousBB rounded : ℕ} (h : 5 ∣ rounded) :
    5 ∣ nextBB level previousBB rounded := by
  unfold nextBB
  rw [getChipBaseUnit_eq]
  split_ifs with h1
  · omega
  · exact h

/-- Strictly increasing big blinds along any completed run of the
level-generation loop, together with the link between the head and the
incoming `previousBB`. -/
theorem blindLoop_chain {mb rate : ℚ} {a : ℕ} :
    ∀ (fuel : ℕ) (cur : ℚ) (lvl prev : ℕ) (L : List Level),
      blindLoop mb rate a fuel cur lvl prev = some L →
      List.Chain' (fun x y => x.bb < y.bb) L ∧ (∀ x ∈ L.head?, 0 < lvl → prev < x.bb) := by
  intro fuel
  induction fuel with
  | zero =>
    intro cur lvl prev L h
    simp only [blindLoop] at h
    by_cases hcur : cur < mb
    · rw [if_pos hcur] at h
      simp at h
    · rw [if_neg hcur] at h
      simp only [Option.some.injEq] at h
      subst h
      exact ⟨List.chain'_nil, by simp⟩
  | succ f ih =>
    intro cur lvl prev L h
    simp only [blindLoop] at h
    by_cases hcur : cur < mb
    · rw [if_pos hcur, Option.map_eq_some'] at h
      obtain ⟨rest, hrest, hL⟩ := h
      obtain ⟨hchain, hhead⟩ := ih _ _ _ _ hrest
      subst hL
      refine ⟨List.chain'_cons'.mpr ⟨?_, hchain⟩, ?_⟩
      · intro y hy
        exact hhead y hy (by omega)
      · intro x hx _
        simp only [List.head?_cons, Option.mem_def, Option.some.injEq] at hx
        subst hx
        exact nextBB_gt (by omega)
    · rw [if_neg hcur] at h
      simp only [Option.some.injEq] at h
      subst h
      exact ⟨List.chain'_nil, by simp⟩

/-- Ante bookkeeping along any completed run of the loop. -/
theorem blindLoop_ante {mb rate : ℚ} {a : ℕ} :
    ∀ (fuel : ℕ) (cur : ℚ) (lvl prev : ℕ) (L : List Level),
      blindLoop mb rate a fuel cur lvl prev = some L →
      ∀ (i : ℕ) (h : i < L.length),
        (L.get ⟨i, h⟩).ante = if a ≤ lvl + i + 1 then (L.get ⟨i, h⟩).bb else 0 := by
  intro fuel
  induction fuel with
  | zero =>
    intro cur lvl prev L h
    simp only [blindLoop] at h
    by_cases hcur : cur < mb
    · rw [if_pos hcur] at h
      simp at h
    · rw [if_neg hcur] at h
      simp only [Option.some.injEq] at h
      subst h
      intro i hi
      simp at hi
  | succ f ih =>
    intro cur lvl prev L h
    simp only [blindLoop] at h
    by_cases hcur : cur < mb
    · rw [if_pos hcur, Option.map_eq_some'] at h
      obtain ⟨rest, hrest, hL⟩ := h
      subst hL
      intro i hi
      match i with
      | 0 => simp
      | j + 1 =>
        have hj : j < rest.length := by simpa using hi
        have := ih _ _ _ _ hrest j hj
        have harith : lvl + 1 + j + 1 = lvl + (j + 1) + 1 := by omega
        simpa [harith] using this
    · rw [if_neg hcur] at h
      simp only [Option.some.injEq] at h
      subst h
      intro i hi
      simp at hi

/-- Positivity of the big blinds: every level is positive except
possibly the very first (index 0 at level 0), which is positive as soon
as the incoming rounded value is at least 5. -/
theorem blindLoop_bb_pos {mb rate : ℚ} {a : ℕ} :
    ∀ (fuel : ℕ) (cur : ℚ) (lvl prev : ℕ) (L : List Level),
      blindLoop mb rate a fuel cur lvl prev = some L →
      ∀ (i : ℕ) (h : i < L.length), (0 < lvl + i ∨ 5 ≤ roundToValidBlind cur) →
        0 < (L.get ⟨i, h⟩).bb := by
  intro fuel
  induction fuel with
  | zero =>
    intro cur lvl prev L h
    simp only [blindLoop] at h
    by_cases hcur : cur < mb
    · rw [if_pos hcur] at h
      simp at h
    · rw [if_neg hcur] at h
      simp only [Option.some.injEq] at h
      subst h
      intro i hi
      simp at hi
  | succ f ih =>
    intro cur lvl prev L h
    simp only [blindLoop] at h
    by_cases hcur : cur < mb
    · rw [if_pos hcur, Option.map_eq_some'] at h
      obtain ⟨rest, hrest, hL⟩ := h
      subst hL
      intro i hi hside
      match i with
      | 0 =>
        simp only [List.get]
        apply nextBB_pos
        rcases hside with hside | hside
        · exact Or.inl (by omega)
        · exact Or.inr (by omega)
      | j + 1 =>
        have hj : j < rest.length := by simpa using hi
        have := ih _ _ _ _ hrest j hj (Or.inl (by omega))
        simpa using this
    · rw [if_neg hcur] at h
      simp only [Option.some.injEq] at h
      subst h
      intro i hi
      simp at hi

/-- The base-unit divisibility of every field of every generated
level. -/
theorem blindLoop_dvd {mb rate : ℚ} {a : ℕ} :
    ∀ (fuel : ℕ) (cur : ℚ) (lvl prev : ℕ) (L : List Level),
      blindLoop mb rate a fuel cur lvl prev = some L →
      ∀ lv ∈ L, 5 ∣ lv.sb ∧ 5 ∣ lv.bb ∧ 5 ∣ lv.ante := by
  intro fuel
  induction fuel with
  | zero =>
    intro cur lvl prev L h
    simp only [blindLoop] at h
    by_cases hcur : cur < mb
    · rw [if_pos hcur] at h
      simp at h
    · rw [if_neg hcur] at h
      simp only [Option.some.injEq] at h
      subst h
      simp
  | succ f ih =>
    intro cur lvl prev L h
    simp only [blindLoop] at h
    by_cases hcur : cur < mb
    · rw [if_pos hcur, Option.map_eq_some'] at h
      obtain ⟨rest, hrest, hL⟩ := h
      subst hL
      intro lv hlv
      rcases List.mem_cons.mp hlv with hlv | hlv
      · subst hlv
        refine ⟨roundToValidBlind_dvd _, nextBB_dvd (roundToValidBlind_dvd _), ?_⟩
        split_ifs
        · exact nextBB_dvd (roundToValidBlind_dvd _)
        · exact dvd_zero 5
      · exact ih _ _ _ _ hrest lv hlv
    · rw [if_neg hcur] at h
      simp only [Option.some.injEq] at h
      subst h
      simp

/-- Fuel sufficiency for the level-generation loop: once past the first
level, the tracked previous big blind grows by at least one per
iteration, and the loop stops as soon as the current value reaches
`maxBlind`. -/
theorem blindLoop_isSome {mb rate : ℚ} {a : ℕ} (hrate : 1 ≤ rate) :
    ∀ (fuel : ℕ) (cur : ℚ) (lvl prev : ℕ), 1 ≤ lvl → (prev : ℚ) ≤ cur →
      mb ≤ (prev : ℚ) + (fuel : ℚ) → (blindLoop mb rate a fuel cur lvl prev).isSome := by
  intro fuel
  induction fuel with
  | zero =>
    intro cur lvl prev _ hpc hmb
    simp only [blindLoop]
    rw [if_neg]
    · simp
    · push_cast at hmb
      exact not_lt.mpr (le_trans (by linarith) hpc)
  | succ f ih =>
    intro cur lvl prev hlvl hpc hmb
    simp only [blindLoop]
    by_cases hcur : cur < mb
    · rw [if_pos hcur, Option.isSome_map']
      apply ih _ (lvl + 1) (nextBB lvl prev (roundToValidBlind cur)) (by omega)
      · rw [qmul_eq]
        exact le_mul_of_one_le_right (by positivity) hrate
      · have hgt : prev + 1 ≤ nextBB lvl prev (roundToValidBlind cur) := nextBB_gt hlvl
        have hgt' : (prev : ℚ) + 1 ≤ (nextBB lvl prev (roundToValidBlind cur) : ℚ) := by
          exact_mod_cast hgt
        push_cast at hmb ⊢
        linarith
    · rw [if_neg hcur]
      simp

theorem effectiveRate_gt_one (speed : Speed) (r : ℚ) : 1 < effectiveRate speed r := by
  unfold effectiveRate
  split_ifs with h
  · exact h
  · cases speed <;> simp only [progressionFactors] <;> rw [Rat.mkRat_eq_div] <;> norm_num

theorem generateBlindStructure_eq (s : ℕ) (sp : Speed) (d : ℕ) (r : ℚ) (a : ℕ) :
    generateBlindStructure s sp d r a =
      (blindLoop (qmul (s : ℚ) 2) (effectiveRate sp r) a (blindFuel s)
        ((s / d : ℕ) : ℚ) 0 0).getD [] := rfl

/-! ## Claim theorems about the blind structure generator -/

/-- C3: for every BlindStructure returned by `generateBlindStructure`
(any startingStack, speed, startingBlindDepth, blindIncreaseRate,
bbaStartLevel), the big blinds are strictly increasing:
`level[i+1].bb > level[i].bb` for every consecutive pair of generated
levels. -/
theorem c3_theorem : ∀ (startingStack : ℕ) (speed : Speed) (startingBlindDepth : ℕ)
    (blindIncreaseRate : ℚ) (bbaStartLevel : ℕ) (i : ℕ)
    (h : i + 1 < (generateBlindStructure startingStack speed startingBlindDepth
      blindIncreaseRate bbaStartLevel).length),
    ((generateBlindStructure startingStack speed startingBlindDepth blindIncreaseRate
      bbaStartLevel).get ⟨i, Nat.lt_of_succ_lt h⟩).bb <
    ((generateBlindStructure startingStack speed startingBlindDepth blindIncreaseRate
      bbaStartLevel).get ⟨i + 1, h⟩).bb := by
  intro s sp d r a i h
  rcases hopt : blindLoop (qmul (s : ℚ) 2) (effectiveRate sp r) a (blindFuel s)
      ((s / d : ℕ) : ℚ) 0 0 with _ | L
  · rw [generateBlindStructure_eq, hopt] at h
    simp at h
  · have hch := (blindLoop_chain _ _ _ _ _ hopt).1
    have hL : generateBlindStructure s sp d r a = L := by
      rw [generateBlindStructure_eq, hopt]
      rfl
    revert h
    rw [hL]
    intro h
    exact List.chain'_iff_get.mp hch i (by omega)

/-- C3 witness: a concrete consecutive pair of a concrete structure. -/
theorem c3_witness :
    1 + 1 < (generateBlindStructure 1000 Speed.normal 50 (mkRat 5 4) 6).length ∧
    ((generateBlindStructure 1000 Speed.normal 50 (mkRat 5 4) 6).get ⟨1, by decide⟩).bb <
    ((generateBlindStructure 1000 Speed.normal 50 (mkRat 5 4) 6).get ⟨2, by decide⟩).bb :=
  ⟨by decide, c3_theorem 1000 Speed.normal 50 (mkRat 5 4) 6 1 (by decide)⟩

/-- C6 (amended): `generateBlindStructure` terminates on every input —
the level-generation loop always completes within `2·startingStack + 2`
iterations (it is not, however, capped by any fixed defensive maximum
level count; see the counterexample). -/
theorem c6_theorem : ∀ (startingStack : ℕ) (speed : Speed) (startingBlindDepth : ℕ)
    (blindIncreaseRate : ℚ) (bbaStartLevel : ℕ),
    (blindLoop (qmul (startingStack : ℚ) 2) (effectiveRate speed blindIncreaseRate)
      bbaStartLevel (blindFuel startingStack)
      ((startingStack / startingBlindDepth : ℕ) : ℚ) 0 0).isSome := by
  intro s sp d r a
  have hrate : 1 ≤ effectiveRate sp r := le_of_lt (effectiveRate_gt_one sp r)
  show (blindLoop _ _ _ (2 * s + 1 + 1) _ 0 0).isSome
  simp only [blindLoop]
  by_cases hcur : ((s / d : ℕ) : ℚ) < qmul (s : ℚ) 2
  · rw [if_pos hcur, Option.isSome_map']
    apply blindLoop_isSome hrate (2 * s + 1) _ 1 _ (by omega)
    · rw [qmul_eq]
      exact le_mul_of_one_le_right (by positivity) hrate
    · rw [qmul_eq]
      push_cast
      have hbb : (0 : ℚ) ≤ (nextBB 0 0 (roundToValidBlind ((s / d : ℕ) : ℚ)) : ℚ) := by positivity
      linarith
  · rw [if_neg hcur]
    simp

set_option maxRecDepth 100000 in
/-- C6 counterexample: the loop is not bounded by the spec's defensive
maximum level count (e.g. 500): with a slow increase rate just above 1,
a 2700-chip stack generates 548 levels. -/
theorem c6_counterexample : ¬ (∀ (startingStack : ℕ) (speed : Speed) (startingBlindDepth : ℕ)
    (blindIncreaseRate : ℚ) (bbaStartLevel : ℕ),
    (generateBlindStructure startingStack speed startingBlindDepth blindIncreaseRate
      bbaStartLevel).length ≤ 500) := by
  intro h
  have h1 := h 2700 Speed.normal 540 (mkRat 101 100) 6
  have h2 : 500 < (generateBlindStructure 2700 Speed.normal 540 (mkRat 101 100) 6).length := by
    decide
  omega

/-- C7: generated levels have `ante = 0` strictly before
`bbaStartLevel` (1-indexed) and `ante = bb` from it on; and in the
Scenario C instance (stack 10000, depth 50, rate 1.25, ante level 6),
level 5 has ante 0 while level 6 has `ante = bb = 600`. -/
theorem c7_theorem :
    (∀ (startingStack : ℕ) (speed : Speed) (startingBlindDepth : ℕ)
      (blindIncreaseRate : ℚ) (bbaStartLevel : ℕ) (i : ℕ)
      (h : i < (generateBlindStructure startingStack speed startingBlindDepth
        blindIncreaseRate bbaStartLevel).length),
      (i + 1 < bbaStartLevel →
        ((generateBlindStructure startingStack speed startingBlindDepth blindIncreaseRate
          bbaStartLevel).get ⟨i, h⟩).ante = 0) ∧
      (bbaStartLevel ≤ i + 1 →
        ((generateBlindStructure startingStack speed startingBlindDepth blindIncreaseRate
          bbaStartLevel).get ⟨i, h⟩).ante =
        ((generateBlindStructure startingStack speed startingBlindDepth blindIncreaseRate
          bbaStartLevel).get ⟨i, h⟩).bb)) ∧
    (generateBlindStructure 10000 Speed.normal 50 (mkRat 5 4) 6)[4]? =
      some { sb := 300, bb := 505, ante := 0 } ∧
    (generateBlindStructure 10000 Speed.normal 50 (mkRat 5 4) 6)[5]? =
      some { sb := 300, bb := 600, ante := 600 } := by
  refine ⟨?_, by decide, by decide⟩
  intro s sp d r a i h
  rcases hopt : blindLoop (qmul (s : ℚ) 2) (effectiveRate sp r) a (blindFuel s)
      ((s / d : ℕ) : ℚ) 0 0 with _ | L
  · rw [generateBlindStructure_eq, hopt] at h
    simp at h
  · have hL : generateBlindStructure s sp d r a = L := by
      rw [generateBlindStructure_eq, hopt]
      rfl
    revert h
    rw [hL]
    intro h
    have := blindLoop_ante _ _ _ _ _ hopt i h
    simp only [Nat.zero_add] at this
    constructor
    · intro hlt
      rw [this, if_neg (by omega)]
    · intro hge
      rw [this, if_pos (by omega)]

/-- C7 witness: the theorem applied at the Scenario C instance, level 5
(index 4, before the ante start) and level 6 (index 5, at it). -/
theorem c7_witness :
    ((generateBlindStructure 10000 Speed.normal 50 (mkRat 5 4) 6).get ⟨4, by decide⟩).ante = 0 ∧
    ((generateBlindStructure 10000 Speed.normal 50 (mkRat 5 4) 6).get ⟨5, by decide⟩).ante =
    ((generateBlindStructure 10000 Speed.normal 50 (mkRat 5 4) 6).get ⟨5, by decide⟩).bb :=
  ⟨(c7_theorem.1 10000 Speed.normal 50 (mkRat 5 4) 6 4 (by decide)).1 (by norm_num),
   (c7_theorem.1 10000 Speed.normal 50 (mkRat 5 4) 6 5 (by decide)).2 (by norm_num)⟩

/-- C9 counterexample: with startingStack 1 and depth 50 the very first
generated level has big blind 0 (the initial `floor(1/50) = 0` rounds
to 0 and the strict-increase enforcement only applies after level 0),
refuting the claim that every generated level has a positive big
blind. -/
theorem c9_counterexample : ¬ (∀ (startingStack : ℕ) (speed : Speed) (startingBlindDepth : ℕ)
    (blindIncreaseRate : ℚ) (bbaStartLevel : ℕ), 1 ≤ startingStack → 1 ≤ startingBlindDepth →
    ∀ lv ∈ generateBlindStructure startingStack speed startingBlindDepth blindIncreaseRate
      bbaStartLevel, 0 < lv.bb) := by
  intro h
  have := h 1 Speed.normal 50 (mkRat 5 4) 6 (by norm_num) (by norm_num)
    { sb := 0, bb := 0, ante := 0 } (by decide)
  simp at this

/-- C9 (amended): every generated level beyond the first has a positive
big blind, and the first level's big blind is positive as well whenever
`floor(startingStack / startingBlindDepth) ≥ 3` (the rounded initial
big blind is then at least one chip). -/
theorem c9_theorem : ∀ (startingStack : ℕ) (speed : Speed) (startingBlindDepth : ℕ)
    (blindIncreaseRate : ℚ) (bbaStartLevel : ℕ) (i : ℕ)
    (h : i < (generateBlindStructure startingStack speed startingBlindDepth
      blindIncreaseRate bbaStartLevel).length),
    0 < i ∨ 3 ≤ startingStack / startingBlindDepth →
    0 < ((generateBlindStructure startingStack speed startingBlindDepth blindIncreaseRate
      bbaStartLevel).get ⟨i, h⟩).bb := by
  intro s sp d r a i h hside
  rcases hopt : blindLoop (qmul (s : ℚ) 2) (effectiveRate sp r) a (blindFuel s)
      ((s / d : ℕ) : ℚ) 0 0 with _ | L
  · rw [generateBlindStructure_eq, hopt] at h
    simp at h
  · have hL : generateBlindStructure s sp d r a = L := by
      rw [generateBlindStructure_eq, hopt]
      rfl
    revert h
    rw [hL]
    intro h
    apply blindLoop_bb_pos _ _ _ _ _ hopt i h
    rcases hside with hside | hside
    · exact Or.inl (by omega)
    · exact Or.inr (le_trans (by norm_num) (roundToValidBlind_cast_ge hside))

/-- C9 witness: the amended theorem applied at the first level of the
Scenario C structure, where `floor(10000/50) = 200 ≥ 3`. -/
theorem c9_witness :
    0 < ((generateBlindStructure 10000 Speed.normal 50 (mkRat 5 4) 6).get ⟨0, by decide⟩).bb :=
  c9_theorem 10000 Speed.normal 50 (mkRat 5 4) 6 0 (by decide) (Or.inr (by norm_num))

/-- C10: every level produced by `generateBlindStructure` has its small
blind, big blind and ante each an exact multiple of the chip base unit
(the GCD of the configured denominations, which is 5). -/
theorem c10_theorem : ∀ (startingStack : ℕ) (speed : Speed) (startingBlindDepth : ℕ)
    (blindIncreaseRate : ℚ) (bbaStartLevel : ℕ),
    ∀ lv ∈ generateBlindStructure startingStack speed startingBlindDepth blindIncreaseRate
      bbaStartLevel,
      getChipBaseUnit ∣ lv.sb ∧ getChipBaseUnit ∣ lv.bb ∧ getChipBaseUnit ∣ lv.ante := by
  intro s sp d r a lv hlv
  rw [getChipBaseUnit_eq]
  rcases hopt : blindLoop (qmul (s : ℚ) 2) (effectiveRate sp r) a (blindFuel s)
      ((s / d : ℕ) : ℚ) 0 0 with _ | L
  · rw [generateBlindStructure_eq, hopt] at hlv
    simp at hlv
  · have hL : generateBlindStructure s sp d r a = L := by
      rw [generateBlindStructure_eq, hopt]
      rfl
    rw [hL] at hlv
    exact blindLoop_dvd _ _ _ _ _ hopt lv hlv

/-- C10 witness: the theorem applied to the first level of a concrete
structure. -/
theorem c10_witness :
    { sb := 10, bb := 20, ante := 0 : Level } ∈
      generateBlindStructure 1000 Speed.normal 50 (mkRat 5 4) 6 ∧
    (getChipBaseUnit ∣ (10 : ℕ) ∧ getChipBaseUnit ∣ (20 : ℕ) ∧ getChipBaseUnit ∣ (0 : ℕ)) :=
  ⟨by decide, c10_theorem 1000 Speed.normal 50 (mkRat 5 4) 6
    { sb := 10, bb := 20, ante := 0 } (by decide)⟩

/-! ## Claim theorems about the capacity calculator and selector -/

/-- C4 counterexample: at 150 players without re-entries the selector
returns the smallest-denomination floor of 5 while the achievable stack
rounds down to 0, so the selected stack exceeds the achievable one. -/
theorem c4_counterexample : ¬ (∀ (maxPlayers maxReentries m s : ℕ), 1 ≤ maxPlayers →
    calculateMaxAchievableStack maxPlayers maxReentries = some m →
    calculateStartingStack maxPlayers maxReentries = some s → s ≤ m) := by
  intro h
  have := h 150 0 0 5 (by norm_num) (by decide) (by decide)
  omega

/-- C4 (amended): whenever the maximum achievable stack is positive,
the stack returned by `calculateStartingStack` is at most
`calculateMaxAchievableStack` (the smallest-denomination floor only
overtakes it when the achievable stack rounds down to 0). -/
theorem c4_theorem : ∀ (maxPlayers maxReentries m s : ℕ),
    calculateMaxAchievableStack maxPlayers maxReentries = some m →
    calculateStartingStack maxPlayers maxReentries = some s → 0 < m → s ≤ m := by
  intro p r m s hm hs hpos
  have h10 : 10 ∣ m := by
    revert hm
    simp only [calculateMaxAchievableStack, maxAchievableForEntries]
    split_ifs
    · intro hm
      cases hm
    · intro hm
      rw [Option.some.injEq] at hm
      subst hm
      exact dvd_mul_left 10 _
  have hm5 : 5 ≤ m := by omega
  have hm2 : maxAchievableForEntries (p * (r + 1)) = some m := hm
  revert hs
  simp only [calculateStartingStack, startingStackForEntries, hm2]
  intro hs
  rw [Option.some.injEq] at hs
  subst hs
  have hsmall : jsMin sortedDenomsAsc = 5 := by decide
  rw [hsmall]
  exact max_le hm5 (min_le_right _ _)

/-- C4 witness: the amended theorem at 16 players, where the achievable
stack is 2350 and the selected stack 2300. -/
theorem c4_witness :
    calculateMaxAchievableStack 16 0 = some 2350 ∧
    calculateStartingStack 16 0 = some 2300 ∧ (2300 : ℕ) ≤ 2350 :=
  ⟨by decide, by decide, c4_theorem 16 0 2350 2300 (by decide) (by decide) (by norm_num)⟩

/-- C5 counterexample: with `maxPlayers = 0` (so `maxEntries = 0 < 1`)
the capacity computation is not rejected: the JS divides the chip
counts by zero and returns the non-finite value `Infinity` (modelled as
`none`), which propagates to the starting-stack selector — no
InvalidConfiguration error exists anywhere on this path. -/
theorem c5_counterexample :
    calculateMaxAchievableStack 0 0 = none ∧ calculateStartingStack 0 0 = none := by
  exact ⟨by decide, by decide⟩

/-- C5 (amended): whenever `maxEntries = maxPlayers·(maxReentries+1)`
is zero, both the capacity computation and the selector run to
completion and return the non-finite `Infinity` value (`none`) instead
of failing with an InvalidConfiguration error. -/
theorem c5_theorem : ∀ (maxPlayers maxReentries : ℕ), maxPlayers * (maxReentries + 1) = 0 →
    calculateMaxAchievableStack maxPlayers maxReentries = none ∧
    calculateStartingStack maxPlayers maxReentries = none := by
  intro p r h
  have h1 : calculateMaxAchievableStack p r = none := by
    unfold calculateMaxAchievableStack maxAchievableForEntries
    rw [if_pos h]
  refine ⟨h1, ?_⟩
  have h2 : maxAchievableForEntries (p * (r + 1)) = none := h1
  unfold calculateStartingStack startingStackForEntries
  rw [h2]

/-- C5 witness: the amended theorem applied at `maxPlayers = 0`. -/
theorem c5_witness :
    calculateMaxAchievableStack 0 0 = none ∧ calculateStartingStack 0 0 = none :=
  c5_theorem 0 0 (by norm_num)

/-! ## Claim theorem about the minimum-liquidity greedy decomposition -/

/-- C8: for every positive amount that is an exact multiple of the chip
base unit (the GCD of the denominations, 5), the greedy decomposition
`calculateMinChipsForAmount` assigns the entire amount to base-unit
chips: exactly `amount / baseUnit` of them and none of any other
denomination. -/
theorem c8_theorem : ∀ (amount : ℕ) (denominations : List ℕ), 0 < amount →
    getChipBaseUnit ∣ amount →
    calculateMinChipsForAmount amount denominations getChipBaseUnit = amount / getChipBaseUnit ∧
    ∀ d, d ≠ getChipBaseUnit → calculateMinChipsForAmount amount denominations d = 0 := by
  intro amount denoms hpos hdvd
  have hz : ¬ amount = 0 := by omega
  obtain ⟨k, hk⟩ := hdvd
  have hmod : amount % getChipBaseUnit = 0 := by
    rw [hk]
    exact Nat.mul_mod_right _ _
  simp only [calculateMinChipsForAmount]
  rw [if_neg hz, if_pos hmod]
  refine ⟨by simp [updD], fun d hd => by simp [updD, hd]⟩

/-- C8 witness: the amount 30 decomposes to six base-unit chips and
nothing else. -/
theorem c8_witness :
    calculateMinChipsForAmount 30 sortedDenomsAsc getChipBaseUnit = 30 / getChipBaseUnit ∧
    ∀ d, d ≠ getChipBaseUnit → calculateMinChipsForAmount 30 sortedDenomsAsc d = 0 :=
  c8_theorem 30 sortedDenomsAsc (by norm_num) (by decide)

/-! ## The per-entry capacity invariant of the solver (claim C2)

Every phase of `calculateChipDistribution` only ever adds chips under a
guard of the form `cap d - dist d`, so the distribution never exceeds
the per-entry capacity; the lemmas below establish this for each loop
of the source, and `solveDistribution_bound` chains them. -/

theorem foldl_dist_bound {cap : ℕ → ℕ} {f : SolveState → ℕ → SolveState}
    (hf : ∀ st a, (∀ x, st.dist x ≤ cap x) → ∀ x, (f st a).dist x ≤ cap x) :
    ∀ (l : List ℕ) (st : SolveState), (∀ x, st.dist x ≤ cap x) →
      ∀ x, (l.foldl f st).dist x ≤ cap x := by
  intro l
  induction l with
  | nil => exact fun st h => h
  | cons y ys ih => exact fun st h => ih _ (hf st y h)

theorem updD_bound {cap dist : ℕ → ℕ} {a v : ℕ} (h : ∀ x, dist x ≤ cap x) (hv : v ≤ cap a) :
    ∀ x, updD dist a v x ≤ cap x := by
  intro x
  unfold updD
  split_ifs with hx
  · subst hx
    exact hv
  · exact h x

theorem seedMaxChips_bound (cap : ℕ → ℕ) : ∀ x, (seedMaxChips cap).dist x ≤ cap x := by
  unfold seedMaxChips
  apply foldl_dist_bound ?_ _ _ (fun x => Nat.zero_le _)
  intro st a hst
  dsimp only
  split_ifs
  · exact updD_bound hst le_rfl
  · exact hst

theorem ensureMinChips_bound {cap minChips : ℕ → ℕ} {st : SolveState}
    (h : ∀ x, st.dist x ≤ cap x) : ∀ x, (ensureMinChips cap minChips st).dist x ≤ cap x := by
  unfold ensureMinChips
  apply foldl_dist_bound ?_ _ _ h
  intro st a hst
  dsimp only
  split_ifs
  · refine updD_bound hst ?_
    have := hst a
    omega
  · exact hst
  · exact hst

theorem applyRemovals_bound {cap : ℕ → ℕ} {st : SolveState} (m : ℕ → ℕ)
    (h : ∀ x, st.dist x ≤ cap x) : ∀ x, (applyRemovals st m).dist x ≤ cap x := by
  unfold applyRemovals
  apply foldl_dist_bound ?_ _ _ h
  intro st a hst
  dsimp only
  split_ifs
  · refine updD_bound hst ?_
    exact le_trans (Nat.sub_le _ _) (hst a)
  · exact hst

theorem applyRemovals_mono (st : SolveState) (m : ℕ → ℕ) :
    ∀ x, (applyRemovals st m).dist x ≤ st.dist x := by
  unfold applyRemovals
  apply foldl_dist_bound ?_ _ _ (fun x => le_rfl)
  intro st2 a hst
  dsimp only
  split_ifs
  · refine updD_bound hst ?_
    exact le_trans (Nat.sub_le _ _) (hst a)
  · exact hst

theorem removeOneLarger_bound {cap minChips : ℕ → ℕ} :
    ∀ (l : List ℕ) (st : SolveState), (∀ x, st.dist x ≤ cap x) →
      ∀ x, (removeOneLarger minChips l st).dist x ≤ cap x := by
  intro l
  induction l with
  | nil => exact fun st h => h
  | cons denom rest ih =>
    intro st hst
    simp only [removeOneLarger]
    split_ifs
    · exact ih st hst
    · exact updD_bound hst (le_trans (Nat.sub_le _ _) (hst denom))
    · exact ih st hst

theorem handleSmallRemainder_bound {cap minChips : ℕ → ℕ} {baseUnit : ℕ}
    {multiplesDesc : List ℕ} {st : SolveState} {e : ℕ} (h : ∀ x, st.dist x ≤ cap x) :
    ∀ x, (handleSmallRemainder minChips baseUnit multiplesDesc st e).dist x ≤ cap x := by
  simp only [handleSmallRemainder]
  split_ifs
  · exact updD_bound h (le_trans (Nat.sub_le _ _) (h baseUnit))
  · exact removeOneLarger_bound _ _ h

theorem reduceLargeRemainder_bound {cap minChips : ℕ → ℕ} :
    ∀ (l : List ℕ) (st : SolveState) (e : ℤ), (∀ x, st.dist x ≤ cap x) →
      ∀ x, (reduceLargeRemainder minChips l st e).dist x ≤ cap x := by
  intro l
  induction l with
  | nil => exact fun st e h => h
  | cons denom rest ih =>
    intro st e hst
    simp only [reduceLargeRemainder]
    split_ifs <;>
      first
        | exact hst
        | exact ih st e hst
        | exact ih _ _ (updD_bound hst (le_trans (Nat.sub_le _ _) (hst denom)))

theorem reducePhase_bound {cap minChips : ℕ → ℕ} {target baseUnit : ℕ} {st : SolveState}
    (h : ∀ x, st.dist x ≤ cap x) : ∀ x, (reducePhase minChips target baseUnit st).dist x ≤ cap x := by
  simp only [reducePhase]
  split_ifs <;>
    first
      | exact handleSmallRemainder_bound (applyRemovals_bound _ h)
      | exact reduceLargeRemainder_bound _ _ _ (applyRemovals_bound _ h)
      | exact applyRemovals_bound _ h

theorem addPassDesc_bound {cap minChips : ℕ → ℕ} {target : ℕ} :
    ∀ (l : List ℕ) (st : SolveState) (progress : Bool), (∀ x, st.dist x ≤ cap x) →
      ∀ x, (addPassDesc cap minChips target l st progress).1.dist x ≤ cap x := by
  intro l
  induction l with
  | nil => exact fun st p h => h
  | cons denom rest ih =>
    intro st progress hst
    simp only [addPassDesc]
    split_ifs with h1 h2 h3 h4 h5
    · exact hst
    · -- direct add
      refine ih _ _ (updD_bound hst ?_)
      have := hst denom
      omega
    · -- single add
      refine ih _ _ (updD_bound hst ?_)
      have := hst denom
      omega
    · -- swap: removals of smaller chips, then one more of this one
      have hmono := applyRemovals_mono st
        (swapScanAsc minChips st.dist denom ((st.total + (denom : ℕ) - target).toNat)
          sortedDenomsAsc (fun _ => 0) 0).1
      have hb := applyRemovals_bound
        (swapScanAsc minChips st.dist denom ((st.total + (denom : ℕ) - target).toNat)
          sortedDenomsAsc (fun _ => 0) 0).1 hst
      refine ih _ _ (updD_bound hb ?_)
      have := hmono denom
      have := hst denom
      omega
    · exact ih _ _ hst
    · exact ih _ _ hst

theorem addFirstAsc_bound {cap : ℕ → ℕ} {target : ℕ} :
    ∀ (l : List ℕ) (st : SolveState), (∀ x, st.dist x ≤ cap x) →
      ∀ x, (addFirstAsc cap target l st).1.dist x ≤ cap x := by
  intro l
  induction l with
  | nil => exact fun st h => h
  | cons denom rest ih =>
    intro st hst
    simp only [addFirstAsc]
    split_ifs with h1 h2 h3
    · exact hst
    · refine updD_bound hst ?_
      have := hst denom
      omega
    · exact ih st hst
    · exact ih st hst

theorem swapForSmallGap_bound {cap : ℕ → ℕ} {baseUnit target : ℕ} :
    ∀ (l : List ℕ) (st : SolveState), (∀ x, st.dist x ≤ cap x) →
      ∀ x, (swapForSmallGap cap baseUnit target l st).1.dist x ≤ cap x := by
  intro l
  induction l with
  | nil => exact fun st h => h
  | cons denom rest ih =>
    intro st hst
    simp only [swapForSmallGap]
    split_ifs with h1 h2 h3 h4
    · exact ih st hst
    · exact hst
    · -- swap one larger chip for base units within the base-unit capacity
      have hinner : ∀ x, updD st.dist denom (st.dist denom - 1) x ≤ cap x :=
        updD_bound hst (le_trans (Nat.sub_le _ _) (hst denom))
      refine updD_bound hinner ?_
      have hbu := hst baseUnit
      refine le_trans (Nat.add_le_add_left h4 _) ?_
      omega
    · exact ih st hst
    · exact ih st hst

theorem fillPass_bound {cap minChips : ℕ → ℕ} {target baseUnit : ℕ} {st : SolveState}
    (h : ∀ x, st.dist x ≤ cap x) :
    ∀ x, (fillPass cap minChips target baseUnit st).1.dist x ≤ cap x := by
  simp only [fillPass]
  split_ifs <;>
    first
      | exact addPassDesc_bound _ _ _ h
      | exact addFirstAsc_bound _ _ (addPassDesc_bound _ _ _ h)
      | exact swapForSmallGap_bound _ _ (addPassDesc_bound _ _ _ h)
      | exact swapForSmallGap_bound _ _ (addFirstAsc_bound _ _ (addPassDesc_bound _ _ _ h))

theorem fillLoop_bound {cap minChips : ℕ → ℕ} {target baseUnit : ℕ} :
    ∀ (fuel : ℕ) (st : SolveState), (∀ x, st.dist x ≤ cap x) →
      ∀ x, (fillLoop cap minChips target baseUnit fuel st).dist x ≤ cap x := by
  intro fuel
  induction fuel with
  | zero => exact fun st h => h
  | succ f ih =>
    intro st hst
    simp only [fillLoop]
    split_ifs
    · exact fillPass_bound hst
    · exact ih _ (fillPass_bound hst)
    · exact hst

theorem finalReduce_bound {cap minChips : ℕ → ℕ} :
    ∀ (l : List ℕ) (dist : ℕ → ℕ) (e : ℤ), (∀ x, dist x ≤ cap x) →
      ∀ x, finalReduce minChips l dist e x ≤ cap x := by
  intro l
  induction l with
  | nil => exact fun dist e h => h
  | cons denom rest ih =>
    intro dist e hst
    simp only [finalReduce]
    split_ifs
    · exact hst
    · exact ih dist e hst
    · exact ih _ _ (updD_bound hst (le_trans (Nat.sub_le _ _) (hst denom)))
    · exact ih dist e hst
    · exact ih dist e hst

theorem deadEndSwap_bound {cap minChips : ℕ → ℕ} {baseUnit alreadyAllocated : ℕ} :
    ∀ (l : List ℕ) (st : SolveState), (∀ x, st.dist x ≤ cap x) →
      st.dist baseUnit ≤ alreadyAllocated →
      ∀ x, (deadEndSwap cap minChips baseUnit alreadyAllocated l st).dist x ≤ cap x := by
  intro l
  induction l with
  | nil => exact fun st h _ => h
  | cons denom rest ih =>
    intro st hst hba
    simp only [deadEndSwap]
    split_ifs with h1 h2 h3 h4
    · exact ih st hst hba
    · exact ih st hst hba
    · -- the swap succeeds: add `baseUnitsToAdd ≤ cap baseUnit - alreadyAllocated`
      have hinner : ∀ x, updD st.dist denom (st.dist denom - 1) x ≤ cap x :=
        updD_bound hst (le_trans (Nat.sub_le _ _) (hst denom))
      refine updD_bound hinner ?_
      have hkeep : updD st.dist denom (st.dist denom - 1) baseUnit = st.dist baseUnit := by
        unfold updD
        rw [if_neg]
        intro heq
        exact h1 heq.symm
      rw [hkeep]
      have h5 : denom / baseUnit ≤ cap baseUnit - alreadyAllocated :=
        le_trans h4 (min_le_right _ _)
      have hf := hst baseUnit
      set t := denom / baseUnit with ht
      omega
    · -- the swap is reverted, continue with the next denomination
      apply ih
      · intro x
        refine @updD_bound cap (updD st.dist denom (st.dist denom - 1)) _ _ ?_ ?_ x
        · exact updD_bound hst (le_trans (Nat.sub_le _ _) (hst denom))
        · have h0 : 0 < st.dist denom := h3.1
          have : updD st.dist denom (st.dist denom - 1) denom = st.dist denom - 1 := by
            unfold updD
            rw [if_pos rfl]
          rw [this]
          have := hst denom
          omega
      · have hne : ¬ baseUnit = denom := fun heq => h1 heq.symm
        show updD (updD st.dist denom (st.dist denom - 1)) denom _ baseUnit ≤ _
        unfold updD
        rw [if_neg hne, if_neg hne]
        exact hba
    · exact ih st hst hba

theorem topUpAsc_bound {cap : ℕ → ℕ} {target : ℕ} :
    ∀ (l : List ℕ) (st : SolveState), (∀ x, st.dist x ≤ cap x) →
      ∀ x, (topUpAsc cap target l st).dist x ≤ cap x := by
  intro l
  induction l with
  | nil => exact fun st h => h
  | cons denom rest ih =>
    intro st hst
    simp only [topUpAsc]
    split_ifs
    · exact hst
    · refine ih _ (updD_bound hst ?_)
      have := hst denom
      omega
    · exact ih st hst
    · exact ih st hst

theorem finalTopUpPhase_bound {cap minChips : ℕ → ℕ} {target baseUnit : ℕ} {st : SolveState}
    (h : ∀ x, st.dist x ≤ cap x) :
    ∀ x, (finalTopUpPhase cap minChips target baseUnit st).dist x ≤ cap x := by
  have haddv : (((target : ℤ) - st.total).toNat + baseUnit - 1) / baseUnit ≤
      cap baseUnit - st.dist baseUnit →
      st.dist baseUnit + (((target : ℤ) - st.total).toNat + baseUnit - 1) / baseUnit ≤
      cap baseUnit := by
    intro hc
    have hb := h baseUnit
    refine le_trans (Nat.add_le_add_left hc _) ?_
    omega
  simp only [finalTopUpPhase]
  split_ifs <;>
    first
      | exact h
      | exact deadEndSwap_bound _ _ h le_rfl
      | exact updD_bound h (haddv (by assumption))
      | exact topUpAsc_bound _ _ h
      | exact topUpAsc_bound _ _ (deadEndSwap_bound _ _ h le_rfl)
      | exact topUpAsc_bound _ _ (updD_bound h (haddv (by assumption)))

set_option maxHeartbeats 1600000 in
theorem runSolverPhases_bound (cap minChips : ℕ → ℕ) (targetStack baseUnit : ℕ) :
    ∀ d, runSolverPhases cap minChips targetStack baseUnit d ≤ cap d := by
  intro d
  unfold runSolverPhases
  apply finalTopUpPhase_bound
  intro x
  dsimp only
  have h0 : ∀ x, (ensureMinChips cap minChips (seedMaxChips cap)).dist x ≤ cap x :=
    ensureMinChips_bound (seedMaxChips_bound _)
  split_ifs <;>
    first
      | exact finalReduce_bound _ _ _ (fillLoop_bound _ _ (reducePhase_bound h0)) x
      | exact fillLoop_bound _ _ (reducePhase_bound h0) x
      | exact finalReduce_bound _ _ _ (reducePhase_bound h0) x
      | exact reducePhase_bound h0 x
      | exact finalReduce_bound _ _ _ (fillLoop_bound _ _ h0) x
      | exact fillLoop_bound _ _ h0 x
      | exact finalReduce_bound _ _ _ h0 x
      | exact h0 x

theorem solveDistribution_bound (startingStack maxPossibleEntries : ℕ)
    (blindStructure : Option (List Level)) :
    ∀ d, solveDistribution startingStack maxPossibleEntries blindStructure d ≤
      CHIP_SET d / maxPossibleEntries := by
  intro d
  unfold solveDistribution
  exact runSolverPhases_bound _ _ _ _ d

/-- C2: for every startingStack, numPlayers ≥ 1, maxReentries and any
blind structure, every count in the distribution returned by
`calculateChipDistribution` is at most
`floor(CHIP_SET[d] / (numPlayers · (maxReentries + 1)))` — the
per-entry capacity ceiling is never exceeded, including by the
gap-filling and swap passes. -/
theorem c2_theorem : ∀ (startingStack numPlayers : ℕ) (blindStructure : Option (List Level))
    (maxReentries : ℕ) (d : ℕ), 1 ≤ numPlayers →
    calculateChipDistribution startingStack numPlayers blindStructure maxReentries d ≤
    CHIP_SET d / (numPlayers * (maxReentries + 1)) := by
  intro T p bs r d _
  exact solveDistribution_bound T (p * (r + 1)) bs d

/-- C2 witness: the Scenario B shape (2300 stack, 10 players, 1
re-entry, 20 entries): the 25-chip count is within `floor(100/20)`. -/
theorem c2_witness :
    calculateChipDistribution 2300 10 none 1 25 ≤ CHIP_SET 25 / (10 * (1 + 1)) :=
  c2_theorem 2300 10 none 1 25 (by norm_num)

/-! ## Exactness of the solver on selector-produced targets (claim C1) -/

/-- C1 counterexample: exactness fails for selector-produced targets in
general — at 151 players (maxEntries 151) the selector returns the
smallest-denomination floor 5 (a multiple of the GCD), but every
per-entry capacity is zero and the solver returns the empty
distribution, summing to 0. -/
theorem c1_counterexample : ¬ (∀ (numPlayers maxReentries targetStack : ℕ),
    calculateStartingStack numPlayers maxReentries = some targetStack →
    sumDist (calculateChipDistribution targetStack numPlayers none maxReentries) =
      targetStack) := by
  intro h
  have h1 := h 151 0 5 (by decide)
  have h2 : sumDist (calculateChipDistribution 5 151 none 0) = 0 := by decide
  omega

/-- When the supplied increase rate exceeds 1 the speed argument is
dead: `effectiveRate` returns the rate unchanged, so the generated
structure does not depend on the speed. -/
theorem generateBlindStructure_speed (s d a : ℕ) (r : ℚ) (h : 1 < r) (sp sp' : Speed) :
    generateBlindStructure s sp d r a = generateBlindStructure s sp' d r a := by
  simp only [generateBlindStructure, effectiveRate, if_pos h]

set_option maxRecDepth 400000 in
/-- C1 (amended): for every target stack produced by the Starting-Stack
Selector with at most 16 total entries, `calculateChipDistribution`
returns a distribution summing exactly to the target when called with
no blind structure, and also when called with the blind structure the
server generates for that stack under its default options (depth 50 BB,
rate 1.25, antes from level 6; the speed is immaterial because the rate
exceeds 1) — except, in the structure-supplied case, at exactly 3 total
entries: there the selector picks 16700 but the generated blinds force
a base-unit liquidity floor of 4800 and the solver returns a
distribution summing to 16695.  In particular, with the configured
inventory, `calculateChipDistribution(2300, 16, null, 0)` sums to
exactly 2300.  (For larger entry counts exactness fails more broadly,
e.g. already at 17 entries with no structure.) -/
theorem c1_theorem :
    (∀ (numPlayers maxReentries targetStack : ℕ),
      numPlayers * (maxReentries + 1) ≤ 16 →
      calculateStartingStack numPlayers maxReentries = some targetStack →
      sumDist (calculateChipDistribution targetStack numPlayers none maxReentries) =
        targetStack) ∧
    (∀ (sp : Speed) (numPlayers maxReentries targetStack : ℕ),
      numPlayers * (maxReentries + 1) ≤ 16 →
      numPlayers * (maxReentries + 1) ≠ 3 →
      calculateStartingStack numPlayers maxReentries = some targetStack →
      sumDist (calculateChipDistribution targetStack numPlayers
        (some (generateBlindStructure targetStack sp 50 (mkRat 5 4) 6)) maxReentries) =
        targetStack) ∧
    (calculateStartingStack 3 0 = some 16700 ∧ ∀ sp : Speed,
      sumDist (calculateChipDistribution 16700 3
        (some (generateBlindStructure 16700 sp 50 (mkRat 5 4) 6)) 0) = 16695) ∧
    sumDist (calculateChipDistribution 2300 16 none 0) = 2300 := by
  have h54 : (1 : ℚ) < mkRat 5 4 := by decide
  refine ⟨?_, ?_, ⟨by decide, ?_⟩, by decide⟩
  · intro p r T hE hsel
    have hkey : ∀ e < 17, ∀ t, startingStackForEntries e = some t →
        sumDist (solveDistribution t e none) = t := by decide
    exact hkey (p * (r + 1)) (by omega) T hsel
  · intro sp p r T hE hne hsel
    rw [generateBlindStructure_speed T 50 6 (mkRat 5 4) h54 sp Speed.normal]
    have hkey : ∀ e < 17, e ≠ 3 → ∀ t, startingStackForEntries e = some t →
        sumDist (solveDistribution t e
          (some (generateBlindStructure t Speed.normal 50 (mkRat 5 4) 6))) = t := by
      decide
    exact hkey (p * (r + 1)) (by omega) hne T hsel
  · intro sp
    rw [generateBlindStructure_speed 16700 50 6 (mkRat 5 4) h54 sp Speed.normal]
    decide

set_option maxRecDepth 400000 in
/-- C1 witness: the amended theorem applied to Scenario A — 16 players,
no re-entries, where the selector picks exactly 2300 — both with no
blind structure and with the structure the server generates for the
2300 stack. -/
theorem c1_witness :
    calculateStartingStack 16 0 = some 2300 ∧
    sumDist (calculateChipDistribution 2300 16 none 0) = 2300 ∧
    sumDist (calculateChipDistribution 2300 16
      (some (generateBlindStructure 2300 Speed.normal 50 (mkRat 5 4) 6)) 0) = 2300 :=
  ⟨by decide, c1_theorem.1 16 0 2300 (by norm_num) (by decide),
    c1_theorem.2.1 Speed.normal 16 0 2300 (by norm_num) (by norm_num) (by decide)⟩

end Poker
